import Mathlib

/-!
Shallow embedding of `cline-issue-reporter` (src/index.ts): an MCP server
exposing two tools, `preview_cline_issue` and `report_cline_issue`.  The
embedding models the pure computational content of the source: shell
escaping, the metadata locator (`getApiMetadata`), argument validation
(`isValidReportArgs`), the version-probing loop, the issue-body formatting
and the `gh` command construction and result handling.  Effectful
boundaries (filesystem, child processes, environment) are modelled as
explicit finite tables passed in a `World` value; the handler additionally
returns the list of external commands it executed, in order, so that
claims about "no external process invoked" are statable.
-/

namespace ClineIssueReporter

/-- The fixed label vocabulary `gitHubLabels` from src/index.ts lines 16-32. -/
def gitHubLabels : List String :=
  ["Bounty", "Bug", "dependencies", "documentation", "Enhancement",
   "Good First Issue", "Help Wanted", "In Progress", "Invalid",
   "javascript", "Question", "Reported by Cline", "RFR", "Triaged",
   "Won\x27t/Unable to Fix"]

/-! ## Shell escaping (src/index.ts lines 37-40)

`escapeShellArg` wraps the argument in single quotes and replaces every
embedded single quote `'` by the four characters `'\''`.  We define it on
`List Char` (the character-level content of a JS string). -/

/-- Character-level body of `arg.replace(/'/g, "'\\''")`: each single quote
becomes close-quote, backslash-escaped quote, open-quote. -/
def escBody : List Char → List Char
  | [] => []
  | c :: cs =>
    if c = '\'' then '\'' :: '\\' :: '\'' :: '\'' :: escBody cs
    else c :: escBody cs

/-- `escapeShellArg` (src/index.ts line 39) on character lists: single-quote
wrapping with embedded-quote escaping. -/
def escArg (s : List Char) : List Char :=
  '\'' :: (escBody s ++ ['\''])

/-- `escapeShellArg` on Lean strings. -/
def escapeShellArg (s : String) : String :=
  String.mk (escArg s.data)

/-! ## A POSIX-shell word reader

To state the round-trip property we model how a POSIX shell reads one
command-line word: outside quotes a backslash escapes the next character,
a single quote opens a quoted section, and an unquoted blank or command
metacharacter (`;`, `|`, `&`, space, tab, newline) terminates the word.
Inside single quotes every character except `'` is literal.  The reader
returns the word read and the unconsumed remainder, or `none` for an
unterminated construct. -/

/-- Characters that terminate an unquoted word (blanks and the command
metacharacters relevant to injection). -/
def isWordStop (c : Char) : Bool :=
  c = ' ' || c = '\t' || c = '\n' || c = ';' || c = '|' || c = '&'

/-- Reader mode: outside quotes or inside a single-quoted section. -/
inductive ShMode
  | unq
  | sq
deriving DecidableEq, Repr

/-- One-word POSIX reader.  `acc` holds the characters read so far,
reversed. -/
def shReadWord : ShMode → List Char → List Char → Option (List Char × List Char)
  | .unq, acc, [] => some (acc.reverse, [])
  | .unq, acc, c :: cs =>
    if c = '\'' then shReadWord .sq acc cs
    else if c = '\\' then
      match cs with
      | [] => none
      | d :: ds => shReadWord .unq (d :: acc) ds
    else if isWordStop c then some (acc.reverse, c :: cs)
    else shReadWord .unq (c :: acc) cs
  | .sq, _, [] => none
  | .sq, acc, c :: cs =>
    if c = '\'' then shReadWord .unq acc cs
    else shReadWord .sq (c :: acc) cs

/-- Reading one word from the beginning of an input, outside quotes. -/
def shWord (input : List Char) : Option (List Char × List Char) :=
  shReadWord .unq [] input

/-! ## Strings and numbers

Helpers mirroring the JS primitives used by `getApiMetadata`:
`/^\d+$/.test`, `parseInt(·, 10)` on all-digit strings, `Math.max`, and
`String.prototype.includes`. -/

/-- `/^\d+$/.test(name)`: non-empty and all decimal digits. -/
def isNumericName (s : String) : Bool :=
  !s.data.isEmpty && s.data.all Char.isDigit

/-- `parseInt(s, 10)` on an all-digit string. -/
def parseDec (s : String) : Nat :=
  s.data.foldl (fun a c => 10 * a + (c.toNat - 48)) 0

/-- `Math.max(...l)` over a list of naturals (used only on non-empty lists,
where the `0` seed is absorbed). -/
def maxNat (l : List Nat) : Nat :=
  l.foldl Nat.max 0

/-- `hay.includes(sub)` on character lists. -/
def containsSub (hay sub : List Char) : Bool :=
  match hay with
  | [] => sub.isEmpty
  | c :: t => sub.isPrefixOf (c :: t) || containsSub t sub

/-- `hay.includes(sub)` on strings. -/
def strContains (hay sub : String) : Bool :=
  containsSub hay.data sub.data

/-! ## The filesystem model

`getApiMetadata` touches the filesystem through `fs.promises.stat`,
`fs.promises.readdir` and `fs.promises.readFile`.  We model a filesystem
as two finite tables: directories (path to the list of subdirectory
names `readdir` returns) and sidecar files (path to parsed content).  A
path absent from `dirs` is a directory whose `stat`/`readdir` throws
(missing or unreadable); a path absent from `files` is a file whose
`readFile` throws.

The sidecar file content is modelled after `JSON.parse`: either the text
is not valid JSON (`unparseable`), or it parses to a document whose
`model_usage` field is absent or not an array (`parsed none`) or is an
array of usage entries (`parsed (some l)`).  Entry fields follow the
`ModelUsageEntry` interface of the source; JS string truthiness is
modelled by treating `""` as a missing field. -/

/-- `ModelUsageEntry` (src/index.ts lines 174-179): timestamps are modelled
as integers (only their ordering matters). -/
structure ModelUsageEntry where
  ts : Int
  model_id : String
  model_provider_id : String
deriving DecidableEq, Repr

/-- Parsed content of a `task_metadata.json` file. -/
inductive SidecarDoc
  | unparseable
  | parsed (model_usage : Option (List ModelUsageEntry))
deriving DecidableEq, Repr

/-- Finite filesystem: directory listings and sidecar files. -/
structure FS where
  dirs : List (String × List String)
  files : List (String × SidecarDoc)
deriving DecidableEq, Repr

/-- The numeric record identifiers present in directory `p`
(`readdir` filtered by `/^\d+$/` and parsed): empty when the directory is
missing, unreadable, or has no numeric subdirectory. -/
def dirNumeric (fs : FS) (p : String) : List Nat :=
  match fs.dirs.lookup p with
  | none => []
  | some names => (names.filter isNumericName).map parseDec

/-! ## The candidate scan (src/index.ts lines 105-133)

The loop keeps `highestOverallTaskNumber` (initially `-1`) and
`finalBasePath` (initially `null`), replacing them only when a
directory's highest numeric record is strictly greater than the running
maximum. -/

/-- One-for-one embedding of the `for (const basePath of possiblePaths)`
loop, with the running state as explicit arguments. -/
def scanGo (fs : FS) : Int → Option String → List String → Int × Option String
  | highest, best, [] => (highest, best)
  | highest, best, p :: rest =>
    let nums := dirNumeric fs p
    if nums.isEmpty then scanGo fs highest best rest
    else
      let m : Int := (maxNat nums : Nat)
      if m > highest then scanGo fs m (some p) rest
      else scanGo fs highest best rest

/-- The scan over all candidate paths, from the initial state. -/
def scanDirs (fs : FS) (paths : List String) : Int × Option String :=
  scanGo fs (-1) none paths

/-! ## Candidate paths per OS family (src/index.ts lines 51-103)

Paths are built with `path.join`; we render them with `/` as separator
uniformly (the separator plays no role in any claim). -/

/-- `os.platform()` outcomes the source distinguishes. -/
inductive Platform
  | win32
  | darwin
  | linux
  | other (name : String)
deriving DecidableEq, Repr

/-- Printed form of the platform (used in the error message and the
issue body's OS line). -/
def platformString : Platform → String
  | .win32 => "win32"
  | .darwin => "darwin"
  | .linux => "linux"
  | .other name => name

/-- `ideApps` (src/index.ts line 53). -/
def ideApps : List String := ["Code", "Cursor", "Windsurf"]

/-- The per-IDE tasks directory for one app under the given root pattern. -/
def tasksDirOf (root app : String) : String :=
  root ++ "/" ++ app ++ "/User/globalStorage/saoudrizwan.claude-dev/tasks"

/-- `possiblePaths` construction: one candidate per IDE, rooted per OS
family, or the corresponding thrown error (src/index.ts lines 57-103). -/
def candidatePaths (platform : Platform) (appData : Option String)
    (homeDir : String) : Except String (List String) :=
  match platform with
  | .win32 =>
    match appData with
    | none => .error "APPDATA environment variable is not defined"
    | some ad => .ok (ideApps.map (tasksDirOf ad))
  | .darwin => .ok (ideApps.map (tasksDirOf (homeDir ++ "/Library/Application Support")))
  | .linux => .ok (ideApps.map (tasksDirOf (homeDir ++ "/.config")))
  | .other name => .error ("Unsupported operating system: " ++ name)

/-- IDE-label derivation (src/index.ts lines 140-147): the first name of
`["Code", "Cursor", "Windsurf"]` contained in the selected path, else
`"Unknown"`. -/
def deriveIde (finalBasePath : String) : String :=
  match ideApps.find? (fun n => strContains finalBasePath n) with
  | some n => n
  | none => "Unknown"

/-! ## Sidecar processing (src/index.ts lines 156-206) -/

/-- The `reduce` of src/index.ts lines 181-186: latest entry by timestamp,
strict `>` so the first of equal-maximum entries is kept. -/
def latestEntryOf (l : List ModelUsageEntry) : Option ModelUsageEntry :=
  l.foldl
    (fun latest current =>
      match latest with
      | none => some current
      | some prev => if current.ts > prev.ts then some current else some prev)
    none

/-- Validation and extraction from a parsed sidecar document
(src/index.ts lines 163-202), before the enclosing catch adds its
prefix. -/
def extractProviderModel (doc : SidecarDoc) : Except String (String × String) :=
  match doc with
  | .unparseable => .error "Unexpected token in JSON"
  | .parsed none => .error "Invalid metadata format: model_usage array missing or empty"
  | .parsed (some l) =>
    if l.isEmpty then
      .error "Invalid metadata format: model_usage array missing or empty"
    else
      match latestEntryOf l with
      | none => .error "Invalid metadata format: latest entry missing required fields"
      | some e =>
        if e.model_provider_id = "" || e.model_id = "" then
          .error "Invalid metadata format: latest entry missing required fields"
        else .ok (e.model_provider_id, e.model_id)

/-- Result record of `getApiMetadata`. -/
structure ApiMetadata where
  apiProvider : String
  modelName : String
  ideUsed : String
deriving DecidableEq, Repr

/-- The sidecar path `path.join(finalBasePath, highest.toString(), "task_metadata.json")`
(src/index.ts lines 150-154). -/
def metadataPath (finalBasePath : String) (highest : Int) : String :=
  finalBasePath ++ "/" ++ toString highest ++ "/task_metadata.json"

/-- The sidecar read of `getApiMetadata` (src/index.ts lines 149-206):
derive the IDE label, read and validate the sidecar, with the catch
wrapping every inner message (including the "Invalid metadata format"
ones) in its own prefix.  A missing file is modelled as `readFile`
throwing `ENOENT`. -/
def readTaskMetadata (fs : FS) (finalBasePath : String) (highest : Int) :
    Except String ApiMetadata :=
  let ideUsed := deriveIde finalBasePath
  match fs.files.lookup (metadataPath finalBasePath highest) with
  | none =>
    .error ("Error reading or parsing metadata file: ENOENT: no such file or directory, open "
      ++ metadataPath finalBasePath highest)
  | some doc =>
    match extractProviderModel doc with
    | .error e => .error ("Error reading or parsing metadata file: " ++ e)
    | .ok (prov, model) =>
      .ok { apiProvider := prov, modelName := model, ideUsed := ideUsed }

/-- `getApiMetadata` (src/index.ts lines 46-207).  Every `throw` becomes
`.error` with the thrown message. -/
def getApiMetadata (platform : Platform) (appData : Option String)
    (homeDir : String) (fs : FS) : Except String ApiMetadata :=
  match candidatePaths platform appData homeDir with
  | .error e => .error e
  | .ok possiblePaths =>
    match scanDirs fs possiblePaths with
    | (_, none) => .error "Could not find any valid task directories"
    | (highest, some finalBasePath) => readTaskMetadata fs finalBasePath highest

/-- The directory/record pair the locator settles on (the scan stage of
`getApiMetadata`), if any: the sidecar consulted afterwards is the one at
`metadataPath` of this pair. -/
def selectedRecord (platform : Platform) (appData : Option String)
    (homeDir : String) (fs : FS) : Option (String × Int) :=
  match candidatePaths platform appData homeDir with
  | .error _ => none
  | .ok possiblePaths =>
    match scanDirs fs possiblePaths with
    | (_, none) => none
    | (highest, some finalBasePath) => some (finalBasePath, highest)

/-- The candidate directories actually scanned (none when no candidate
list could be built: unrecognized OS family or missing APPDATA). -/
def candidateDirs (platform : Platform) (appData : Option String)
    (homeDir : String) : List String :=
  match candidatePaths platform appData homeDir with
  | .error _ => []
  | .ok possiblePaths => possiblePaths

/-- Failure case 1: no candidate directory yields any numeric record
(vacuously true when there are no candidate directories at all). -/
def noValidTaskRecord (platform : Platform) (appData : Option String)
    (homeDir : String) (fs : FS) : Bool :=
  (candidateDirs platform appData homeDir).all
    (fun p => (dirNumeric fs p).isEmpty)

/-- The lookup result for the selected record's sidecar file: outer
`none` when no record was selected. -/
def selectedDoc (platform : Platform) (appData : Option String)
    (homeDir : String) (fs : FS) : Option (Option SidecarDoc) :=
  (selectedRecord platform appData homeDir fs).map
    (fun pr => fs.files.lookup (metadataPath pr.1 pr.2))

/-- Failure case 2: the selected record's sidecar file is missing or not
valid JSON. -/
def sidecarMissingOrUnparseable (platform : Platform) (appData : Option String)
    (homeDir : String) (fs : FS) : Bool :=
  match selectedDoc platform appData homeDir fs with
  | some none => true
  | some (some .unparseable) => true
  | _ => false

/-- Failure case 3: the sidecar parses but its usage list is missing, not
an array, or empty. -/
def usageListInvalid (platform : Platform) (appData : Option String)
    (homeDir : String) (fs : FS) : Bool :=
  match selectedDoc platform appData homeDir fs with
  | some (some (.parsed none)) => true
  | some (some (.parsed (some l))) => l.isEmpty
  | _ => false

/-- Failure case 4: the maximum-timestamp usage entry lacks a provider or
model identifier. -/
def latestEntryIncomplete (platform : Platform) (appData : Option String)
    (homeDir : String) (fs : FS) : Bool :=
  match selectedDoc platform appData homeDir fs with
  | some (some (.parsed (some l))) =>
    !l.isEmpty &&
      (match latestEntryOf l with
       | none => false
       | some e => e.model_provider_id = "" || e.model_id = "")
  | _ => false

/-! ## Argument validation (src/index.ts lines 210-227)

Incoming tool arguments are untyped JSON; we model a JSON value at the
granularity `isValidReportArgs` distinguishes (string / array / anything
else), and the argument object by its three relevant properties (absent
property = `undefined`).  A non-object argument value is `notObj`. -/

/-- A JSON value as seen by the validator. -/
inductive JVal
  | str (s : String)
  | arr (elems : List JVal)
  | other

/-- The raw `request.params.arguments` value. -/
inductive RawArgs
  | notObj
  | obj (title description labels : Option JVal)

/-- `typeof v === "string"` for a possibly-absent property. -/
def isStrVal : Option JVal → Bool
  | some (.str _) => true
  | _ => false

/-- `isValidReportArgs` (src/index.ts lines 210-227). -/
def isValidReportArgs : RawArgs → Bool
  | .notObj => false
  | .obj title description labels =>
    isStrVal description && isStrVal title &&
      (match labels with
       | none => true
       | some (.arr xs) =>
         xs.all (fun x => match x with | .str _ => true | _ => false)
       | some _ => false)

/-- Typed arguments after validation. -/
structure ReportArgs where
  title : String
  description : String
  labels : Option (List String)
deriving DecidableEq, Repr

/-- Read a validated argument object into its typed form (`none` exactly
when `isValidReportArgs` rejects). -/
def extractArgs : RawArgs → Option ReportArgs
  | .notObj => none
  | .obj t d l =>
    match t, d with
    | some (.str ts), some (.str ds) =>
      match l with
      | none => some ⟨ts, ds, none⟩
      | some (.arr xs) =>
        match xs.mapM (fun x => match x with | JVal.str s => some s | _ => none) with
        | some strs => some ⟨ts, ds, some strs⟩
        | none => none
      | some _ => none
    | _, _ => none

/-! ## External processes

`execAsync` either resolves with `{stdout, stderr}` or rejects with an
error carrying `message`, `stdout` and `stderr` properties.  A world
carries a finite table from command string to outcome; a command absent
from the table is modelled as a rejection with empty fields (the
"truly unexpected" case of the source's final catch). -/

/-- Outcome of `execAsync(command)`. -/
inductive ExecOutcome
  | ok (stdout stderr : String)
  | fails (message stdout stderr : String)
deriving DecidableEq, Repr

/-- Look up a command's outcome in the process table. -/
def runCmd (ex : List (String × ExecOutcome)) (c : String) : ExecOutcome :=
  (ex.lookup c).getD (.fails "" "" "")

/-! ## Version probing (src/index.ts lines 346-377) -/

/-- The fixed ordered list of IDE CLIs tried (line 352). -/
def ideClis : List String := ["code", "cursor", "windsurf"]

/-- `findstr` on Windows, `grep` elsewhere (lines 350-351). -/
def searchCmd (p : Platform) : String :=
  if p = .win32 then "findstr" else "grep"

/-- The probe command built for one IDE (line 357). -/
def versionProbeCmd (p : Platform) (ide : String) : String :=
  ide ++ " --list-extensions --show-versions | " ++ searchCmd p
    ++ " saoudrizwan.claude-dev"

/-- The literal part of the version pattern. -/
def verNeedle : List Char := "saoudrizwan.claude-dev@".data

/-- A character matched by `[\d.]`. -/
def isVerChar (c : Char) : Bool :=
  c.isDigit || c = '.'

/-- Leftmost match of `/saoudrizwan\.claude-dev@([\d.]+)/`: at each
position, if the literal needle starts here and at least one `[\d.]`
character follows it, capture the maximal such run; otherwise keep
scanning. -/
def findVerMatch : List Char → Option (List Char)
  | [] => none
  | c :: t =>
    if verNeedle.isPrefixOf (c :: t) then
      let run := ((c :: t).drop verNeedle.length).takeWhile isVerChar
      if run.isEmpty then findVerMatch t else some run
    else findVerMatch t

/-- `stdout.match(/saoudrizwan\.claude-dev@([\d.]+)/)`, returning the
captured group (line 360). -/
def versionMatch (stdout : String) : Option String :=
  (findVerMatch stdout.data).map String.mk

/-- The `for (const ide of ides)` probe loop (lines 355-369): first
command whose stdout matches wins; a failing command is caught and the
next IDE is tried; all probes attempted are recorded in order in the
returned trace. -/
def versionLoopGo (ex : List (String × ExecOutcome)) (p : Platform) :
    List String → String × List String
  | [] => ("unknown", [])
  | ide :: rest =>
    let c := versionProbeCmd p ide
    match runCmd ex c with
    | .ok out _ =>
      match versionMatch out with
      | some v => (v, [c])
      | none =>
        let r := versionLoopGo ex p rest
        (r.1, c :: r.2)
    | .fails _ _ _ =>
      let r := versionLoopGo ex p rest
      (r.1, c :: r.2)

/-! ## Issue body, gh command and responses (src/index.ts lines 317-508) -/

/-- The hardcoded repository (line 318). -/
def repoConst : String := "cline/cline"

/-- The formatted issue body template literal (lines 380-390). -/
def formattedBody (clineVersion ideUsed osPlatform osRelease apiProvider
    modelName description : String) : String :=
  "**Reported by:** User via Cline Issue Reporter MCP\n**Cline Version:** "
    ++ clineVersion ++ "\n**IDE:** " ++ ideUsed ++ "\n**OS:** " ++ osPlatform
    ++ " (" ++ osRelease ++ ")\n**API Provider:** " ++ apiProvider
    ++ "\n**Model:** " ++ modelName ++ "\n\n---\n\n**Description:**\n"
    ++ description

/-- The `gh issue create` command without labels (lines 414-418). -/
def ghCommandBase (title body : String) : String :=
  "gh issue create --repo " ++ escapeShellArg repoConst ++ " --title "
    ++ escapeShellArg title ++ " --body " ++ escapeShellArg body

/-- `Array.prototype.join(",")`. -/
def joinComma : List String → String
  | [] => ""
  | [s] => s
  | s :: rest => s ++ "," ++ joinComma rest

/-- The full `gh` command with the optional `--label` argument
(lines 414-425): labels are escaped individually and comma-joined. -/
def ghCommand (title body : String) (labels : Option (List String)) : String :=
  match labels with
  | some ls =>
    if ls.isEmpty then ghCommandBase title body
    else ghCommandBase title body ++ " --label "
      ++ joinComma (ls.map escapeShellArg)
  | none => ghCommandBase title body

/-- Content of a tool response: either plain text or the preview object
(the source serializes the latter with `JSON.stringify(·, null, 2)`; we
keep it structured because the claims are about its fields). -/
inductive RContent
  | text (s : String)
  | previewObj (title body : String) (labels : List String) (repository : String)
deriving DecidableEq, Repr

/-- A normal tool response. -/
structure Response where
  content : RContent
  isError : Bool
deriving DecidableEq, Repr

/-- Overall outcome of a tool call: a response, or a thrown `McpError`
(protocol-level fault).  Both record the trace of external commands
executed, in order. -/
inductive ToolResult
  | response (r : Response) (trace : List String)
  | protocolError (code msg : String) (trace : List String)
deriving DecidableEq, Repr

/-- Handling of a resolved `gh` execution (lines 429-458): stderr with no
stdout is an error; otherwise stdout (or the fixed success message when
stdout is empty) is returned. -/
def ghResultResponse (ghStdout ghStderr : String) : Response :=
  if ghStderr ≠ "" && ghStdout = "" then
    { content := .text ("GitHub CLI Error: " ++ ghStderr), isError := true }
  else
    { content := .text (if ghStdout ≠ "" then ghStdout
        else "Issue reported successfully (no stdout from gh)."),
      isError := false }

/-- The outer catch (lines 459-508) for a rejected `gh` execution:
`error.stderr || error.stdout || error.message` is inspected for known
substrings, otherwise surfaced as a generic failure; with all three
empty the error is rethrown as an internal protocol error. -/
def ghCatchResult (message stdout stderr : String) (trace : List String) :
    ToolResult :=
  if stderr ≠ "" || stdout ≠ "" || message ≠ "" then
    let errorMessage := if stderr ≠ "" then stderr
      else if stdout ≠ "" then stdout else message
    if strContains errorMessage "gh not found"
        || strContains errorMessage "command not found" then
      .response
        { content := .text "Error: GitHub CLI (\x27gh\x27) not found. Please install it and authenticate (`gh auth login`).",
          isError := true } trace
    else if strContains errorMessage "authentication required" then
      .response
        { content := .text "Error: GitHub CLI authentication required. Please run `gh auth login`.",
          isError := true } trace
    else
      .response
        { content := .text ("Command execution failed: " ++ errorMessage),
          isError := true } trace
  else
    .protocolError "InternalError" ("Failed to report issue: " ++ message) trace

/-- The world a request runs in: OS identity, environment, filesystem and
process table. -/
structure World where
  platform : Platform
  osRelease : String
  homeDir : String
  appData : Option String
  fs : FS
  exec : List (String × ExecOutcome)
deriving DecidableEq, Repr

/-- The two tool names. -/
inductive ToolName
  | preview_cline_issue
  | report_cline_issue
deriving DecidableEq, Repr

/-- The error text returned when the metadata locator fails
(src/index.ts line 339). -/
def metadataErrorText (msg : String) : String :=
  "Error retrieving API metadata: " ++ msg
    ++ ". Please try again or provide apiProvider and modelName manually."

/-- The request handler after validation (src/index.ts lines 317-508):
metadata lookup (short-circuiting on failure), version probing, body
formatting, then either the preview object or the `gh` execution. -/
def handleValidated (name : ToolName) (args : ReportArgs) (w : World) :
    ToolResult :=
  match getApiMetadata w.platform w.appData w.homeDir w.fs with
  | .error msg =>
    .response { content := .text (metadataErrorText msg), isError := true } []
  | .ok md =>
    let vr := versionLoopGo w.exec w.platform ideClis
    let body := formattedBody vr.1 md.ideUsed (platformString w.platform)
      w.osRelease md.apiProvider md.modelName args.description
    match name with
    | .preview_cline_issue =>
      .response
        { content := .previewObj args.title body (args.labels.getD []) repoConst,
          isError := false } vr.2
    | .report_cline_issue =>
      let cmd := ghCommand args.title body args.labels
      match runCmd w.exec cmd with
      | .ok out err => .response (ghResultResponse out err) (vr.2 ++ [cmd])
      | .fails msg out err => ghCatchResult msg out err (vr.2 ++ [cmd])

/-- The full `CallToolRequestSchema` handler (src/index.ts lines 297-509):
unknown tool and invalid arguments are rejected before any work. -/
def handleRequest (toolName : String) (args : RawArgs) (w : World) : ToolResult :=
  if toolName ≠ "report_cline_issue" && toolName ≠ "preview_cline_issue" then
    .protocolError "MethodNotFound" ("Unknown tool: " ++ toolName) []
  else
    match extractArgs args with
    | none =>
      .protocolError "InvalidParams"
        ("Invalid arguments for " ++ toolName
          ++ ". Requires: description (string), title (string), labels (string[], optional).") []
    | some rargs =>
      let name : ToolName :=
        if toolName = "preview_cline_issue" then .preview_cline_issue
        else .report_cline_issue
      handleValidated name rargs w

/-- Outcome of probing one IDE CLI: the version string its probe command
yields, or `none` when the command fails or its output has no match. -/
def probeVersion (ex : List (String × ExecOutcome)) (p : Platform)
    (ide : String) : Option String :=
  match runCmd ex (versionProbeCmd p ide) with
  | .ok out _ => versionMatch out
  | .fails _ _ _ => none

/-- The external commands a tool call executed, in order. -/
def traceOf : ToolResult → List String
  | .response _ trace => trace
  | .protocolError _ _ trace => trace

/-- Whether a tool call was rejected at the protocol boundary (a thrown
`McpError`) rather than answered with a response. -/
def isRejected : ToolResult → Bool
  | .response _ _ => false
  | .protocolError _ _ _ => true

/-- The labels field of a preview response, when the result is one. -/
def previewLabels : ToolResult → Option (List String)
  | .response { content := .previewObj _ _ labs _, isError := _ } _ => some labs
  | _ => none

/-- Character-level form of the comma-join of individually escaped
arguments. -/
def escJoinChars : List (List Char) → List Char
  | [] => []
  | [s] => escArg s
  | s :: rest => escArg s ++ ',' :: escJoinChars rest

/-- Character-level comma-join of plain strings. -/
def commaJoinChars : List (List Char) → List Char
  | [] => []
  | [s] => s
  | s :: rest => s ++ ',' :: commaJoinChars rest

/-- The linux candidate list for a given home directory
(`candidatePaths .linux _ homeDir`). -/
def linuxCandidatesOf (homeDir : String) : List String :=
  ideApps.map (tasksDirOf (homeDir ++ "/.config"))

/-- A concrete home directory for the tie-breaking scenario. -/
def demoHome : String := "/home/user"

/-- The k-th linux candidate directory for `demoHome`, in the fixed order
Code, Cursor, Windsurf. -/
def demoCand (k : Fin 3) : String :=
  tasksDirOf (demoHome ++ "/.config") (ideApps.get (Fin.cast (by rfl) k))

/-! ## Concrete demonstration worlds (used by witnesses and
counterexamples) -/

/-- A small filesystem: Code has records 12 and 7, Cursor has record 15
with a well-formed sidecar. -/
def demoFS : FS :=
  { dirs :=
      [("/home/u/.config/Code/User/globalStorage/saoudrizwan.claude-dev/tasks",
        ["12", "7", "junk"]),
       ("/home/u/.config/Cursor/User/globalStorage/saoudrizwan.claude-dev/tasks",
        ["15"])],
    files :=
      [("/home/u/.config/Cursor/User/globalStorage/saoudrizwan.claude-dev/tasks/15/task_metadata.json",
        .parsed (some [⟨1, "m1", "p1"⟩, ⟨5, "M", "P"⟩, ⟨3, "m3", "p3"⟩]))] }

/-- A linux world over `demoFS` with no external command succeeding. -/
def demoWorld : World :=
  { platform := .linux, osRelease := "6.1.0", homeDir := "/home/u",
    appData := none, fs := demoFS, exec := [] }

/-- A linux world with an empty filesystem (metadata lookup fails). -/
def emptyWorld : World :=
  { platform := .linux, osRelease := "6.1.0", homeDir := "/home/u",
    appData := none, fs := { dirs := [], files := [] }, exec := [] }

/-- The issue body `demoWorld` produces for description "D". -/
def demoBody : String :=
  formattedBody "unknown" "Cursor" "linux" "6.1.0" "P" "M" "D"

/-- The gh command `demoWorld` builds for title "T" and no labels. -/
def demoGhCmd : String := ghCommand "T" demoBody none

/-- `demoWorld` with the gh command resolving (URL on stdout, an
informational message on stderr). -/
def demoWorldGh : World :=
  { demoWorld with exec :=
      [(demoGhCmd,
        .ok "https://github.com/cline/cline/issues/123\n" "notice: text")] }

/-- A process table where the `code` probe fails and the `cursor` probe
reports a version. -/
def demoExecProbe : List (String × ExecOutcome) :=
  [("cursor --list-extensions --show-versions | grep saoudrizwan.claude-dev",
    .ok "saoudrizwan.claude-dev@3.2.1\n" "")]

/-- A filesystem where Code and Cursor tie at record 15. -/
def demoFSTie : FS :=
  { dirs :=
      [("/home/user/.config/Code/User/globalStorage/saoudrizwan.claude-dev/tasks",
        ["15", "12"]),
       ("/home/user/.config/Cursor/User/globalStorage/saoudrizwan.claude-dev/tasks",
        ["15"])],
    files := [] }

/-- The raw arguments of a request carrying a label outside the fixed
vocabulary. -/
def rawBadLabel : RawArgs :=
  .obj (some (.str "T")) (some (.str "D"))
    (some (.arr [.str "totally-made-up-label"]))

/-! ## Theorems -/

theorem escBody_quote (cs : List Char) :
    escBody ('\'' :: cs) = '\'' :: '\\' :: '\'' :: '\'' :: escBody cs := by
  simp [escBody]

theorem escBody_other (cs : List Char) (c : Char) (h : c ≠ '\'') :
    escBody (c :: cs) = c :: escBody cs := by
  simp [escBody, h]

theorem shReadWord_unq_nil (acc : List Char) :
    shReadWord .unq acc [] = some (acc.reverse, []) := by
  simp [shReadWord]

theorem shReadWord_unq_quote (acc cs : List Char) :
    shReadWord .unq acc ('\'' :: cs) = shReadWord .sq acc cs := by
  rw [shReadWord.eq_def]
  simp

theorem shReadWord_unq_backslash (acc cs : List Char) (d : Char) :
    shReadWord .unq acc ('\\' :: d :: cs) = shReadWord .unq (d :: acc) cs := by
  simp [shReadWord]

theorem shReadWord_unq_plain (acc cs : List Char) (c : Char) (h1 : c ≠ '\'')
    (h2 : c ≠ '\\') (h3 : isWordStop c = false) :
    shReadWord .unq acc (c :: cs) = shReadWord .unq (c :: acc) cs := by
  rw [shReadWord.eq_def]
  simp [h1, h2, h3]

theorem shReadWord_sq_quote (acc cs : List Char) :
    shReadWord .sq acc ('\'' :: cs) = shReadWord .unq acc cs := by
  simp [shReadWord]

theorem shReadWord_sq_other (acc cs : List Char) (c : Char) (h : c ≠ '\'') :
    shReadWord .sq acc (c :: cs) = shReadWord .sq (c :: acc) cs := by
  simp [shReadWord, h]

/-- Key reader lemma: consuming the escaped body of `s` followed by a closing
quote, starting inside single quotes, accumulates exactly `s` and resumes
outside quotes on the remainder. -/
theorem shReadWord_sq_escBody (s : List Char) :
    ∀ (acc rest : List Char),
      shReadWord .sq acc (escBody s ++ '\'' :: rest)
        = shReadWord .unq (s.reverse ++ acc) rest := by
  induction s with
  | nil =>
    intro acc rest
    simp [escBody, shReadWord_sq_quote]
  | cons c cs ih =>
    intro acc rest
    by_cases hc : c = '\''
    · subst hc
      rw [escBody_quote]
      simp only [List.cons_append]
      rw [shReadWord_sq_quote,
        shReadWord_unq_backslash,
        shReadWord_unq_quote,
        ih]
      simp
    · rw [escBody_other _ _ hc]
      simp only [List.cons_append]
      rw [shReadWord_sq_other _ _ _ hc, ih]
      simp

theorem foldl_max_seed_le (l : List Nat) : ∀ (a : Nat), a ≤ l.foldl Nat.max a := by
  induction l with
  | nil => intro a; exact le_refl a
  | cons b t ih =>
    intro a
    exact le_trans (Nat.le_max_left a b) (ih (Nat.max a b))

theorem foldl_max_le (l : List Nat) : ∀ (a x : Nat), x ∈ l → x ≤ l.foldl Nat.max a := by
  induction l with
  | nil => intro a x hx; cases hx
  | cons b t ih =>
    intro a x hx
    rcases List.mem_cons.mp hx with h | h
    · subst h
      exact le_trans (Nat.le_max_right a x) (foldl_max_seed_le t (Nat.max a x))
    · exact ih (Nat.max a b) x h

theorem foldl_max_mem (l : List Nat) : ∀ (a : Nat),
    l.foldl Nat.max a = a ∨ l.foldl Nat.max a ∈ l := by
  induction l with
  | nil => intro a; left; rfl
  | cons b t ih =>
    intro a
    have hfold : (b :: t).foldl Nat.max a = t.foldl Nat.max (Nat.max a b) := rfl
    rcases ih (Nat.max a b) with h | h
    · by_cases hab : a ≤ b
      · have hm : Nat.max a b = b := Nat.max_eq_right hab
        right; rw [hfold, h, hm]; exact List.mem_cons_self b t
      · have hm : Nat.max a b = a := Nat.max_eq_left (le_of_not_le hab)
        left; rw [hfold, h, hm]
    · right; rw [hfold]; exact List.mem_cons_of_mem b h

/-- Every element of a list is bounded by its `Math.max`. -/
theorem le_maxNat (l : List Nat) (x : Nat) (hx : x ∈ l) : x ≤ maxNat l :=
  foldl_max_le l 0 x hx

/-- `Math.max` of a non-empty list of naturals is an element of the list. -/
theorem maxNat_mem (l : List Nat) (h : l ≠ []) : maxNat l ∈ l := by
  rcases foldl_max_mem l 0 with h0 | h0
  · cases l with
    | nil => exact absurd rfl h
    | cons b t =>
      have hb : b ≤ maxNat (b :: t) :=
        le_maxNat (b :: t) b (List.mem_cons_self b t)
      have hb0 : b = 0 := Nat.le_zero.mp (by rw [maxNat] at hb; rw [h0] at hb; exact hb)
      have : maxNat (b :: t) = b := by rw [maxNat, h0, hb0]
      rw [this]
      exact List.mem_cons_self b t
  · exact h0

theorem scanGo_nil (fs : FS) (h : Int) (b : Option String) :
    scanGo fs h b [] = (h, b) := rfl

theorem scanGo_cons_empty (fs : FS) (h : Int) (b : Option String)
    (p : String) (rest : List String) (hp : dirNumeric fs p = []) :
    scanGo fs h b (p :: rest) = scanGo fs h b rest := by
  simp [scanGo, hp]

theorem scanGo_cons_gt (fs : FS) (h : Int) (b : Option String)
    (p : String) (rest : List String) (hp : dirNumeric fs p ≠ [])
    (hgt : ((maxNat (dirNumeric fs p) : Nat) : Int) > h) :
    scanGo fs h b (p :: rest)
      = scanGo fs ((maxNat (dirNumeric fs p) : Nat) : Int) (some p) rest := by
  have hne : (dirNumeric fs p).isEmpty = false := by
    simpa [List.isEmpty_iff] using hp
  simp [scanGo, hne, hgt]

theorem scanGo_cons_le (fs : FS) (h : Int) (b : Option String)
    (p : String) (rest : List String) (hp : dirNumeric fs p ≠ [])
    (hle : ¬ ((maxNat (dirNumeric fs p) : Nat) : Int) > h) :
    scanGo fs h b (p :: rest) = scanGo fs h b rest := by
  have hne : (dirNumeric fs p).isEmpty = false := by
    simpa [List.isEmpty_iff] using hp
  simp [scanGo, hne, hle]

/-- The running maximum never decreases. -/
theorem scanGo_fst_ge (fs : FS) :
    ∀ (ps : List String) (h : Int) (b : Option String), h ≤ (scanGo fs h b ps).1 := by
  intro ps
  induction ps with
  | nil => intro h b; exact le_refl h
  | cons p rest ih =>
    intro h b
    by_cases hp : dirNumeric fs p = []
    · rw [scanGo_cons_empty fs h b p rest hp]; exact ih h b
    · by_cases hgt : ((maxNat (dirNumeric fs p) : Nat) : Int) > h
      · rw [scanGo_cons_gt fs h b p rest hp hgt]
        exact le_trans (le_of_lt hgt) (ih _ _)
      · rw [scanGo_cons_le fs h b p rest hp hgt]; exact ih h b

/-- Every numeric record in every scanned directory is bounded by the final
running maximum. -/
theorem scanGo_fst_bound (fs : FS) :
    ∀ (ps : List String) (h : Int) (b : Option String) (q : String) (m : Nat),
      q ∈ ps → m ∈ dirNumeric fs q → (m : Int) ≤ (scanGo fs h b ps).1 := by
  intro ps
  induction ps with
  | nil => intro h b q m hq _; cases hq
  | cons p rest ih =>
    intro h b q m hq hm
    rcases List.mem_cons.mp hq with hq | hq
    · subst hq
      have hne : dirNumeric fs q ≠ [] := by
        intro h0; rw [h0] at hm; cases hm
      have hmax : (m : Int) ≤ ((maxNat (dirNumeric fs q) : Nat) : Int) := by
        exact_mod_cast le_maxNat _ m hm
      by_cases hgt : ((maxNat (dirNumeric fs q) : Nat) : Int) > h
      · rw [scanGo_cons_gt fs h b q rest hne hgt]
        exact le_trans hmax (scanGo_fst_ge fs rest _ _)
      · rw [scanGo_cons_le fs h b q rest hne hgt]
        exact le_trans (le_trans hmax (not_lt.mp hgt)) (scanGo_fst_ge fs rest h b)
    · by_cases hp : dirNumeric fs p = []
      · rw [scanGo_cons_empty fs h b p rest hp]; exact ih h b q m hq hm
      · by_cases hgt : ((maxNat (dirNumeric fs p) : Nat) : Int) > h
        · rw [scanGo_cons_gt fs h b p rest hp hgt]; exact ih _ _ q m hq hm
        · rw [scanGo_cons_le fs h b p rest hp hgt]; exact ih h b q m hq hm

/-- A selected base path stays selected (only replaced by another). -/
theorem scanGo_some_stays (fs : FS) :
    ∀ (ps : List String) (h : Int) (p0 : String),
      (scanGo fs h (some p0) ps).2 ≠ none := by
  intro ps
  induction ps with
  | nil => intro h p0 hc; exact Option.noConfusion hc
  | cons p rest ih =>
    intro h p0
    by_cases hp : dirNumeric fs p = []
    · rw [scanGo_cons_empty fs h (some p0) p rest hp]; exact ih h p0
    · by_cases hgt : ((maxNat (dirNumeric fs p) : Nat) : Int) > h
      · rw [scanGo_cons_gt fs h (some p0) p rest hp hgt]; exact ih _ p
      · rw [scanGo_cons_le fs h (some p0) p rest hp hgt]; exact ih h p0

/-- The scan finds no base path exactly when no candidate directory has a
numeric subdirectory. -/
theorem scanDirs_none_iff (fs : FS) (ps : List String) :
    (scanDirs fs ps).2 = none ↔ ∀ p ∈ ps, dirNumeric fs p = [] := by
  unfold scanDirs
  induction ps with
  | nil => simp [scanGo_nil]
  | cons p rest ih =>
    by_cases hp : dirNumeric fs p = []
    · rw [scanGo_cons_empty fs (-1) none p rest hp]
      constructor
      · intro h q hq
        rcases List.mem_cons.mp hq with hq | hq
        · subst hq; exact hp
        · exact (ih.mp h) q hq
      · intro h
        exact ih.mpr (fun q hq => h q (List.mem_cons_of_mem p hq))
    · have hgt : ((maxNat (dirNumeric fs p) : Nat) : Int) > (-1 : Int) := by
        have : (0 : Int) ≤ ((maxNat (dirNumeric fs p) : Nat) : Int) := Int.ofNat_nonneg _
        omega
      rw [scanGo_cons_gt fs (-1) none p rest hp hgt]
      constructor
      · intro h
        exact absurd h (scanGo_some_stays fs rest _ p)
      · intro h
        exact absurd (h p (List.mem_cons_self p rest)) hp

/-- Characterisation of a successful scan: the selected pair either was the
initial state, or the selected path occurs in the list after a prefix all
of whose records are strictly below the selected number (the strict `>`
keeps the earliest candidate among ties), with the selected number the
maximum of the selected directory. -/
theorem scanGo_split (fs : FS) :
    ∀ (ps : List String) (h : Int) (b : Option String) (n : Int) (p : String),
      scanGo fs h b ps = (n, some p) →
      (n = h ∧ b = some p) ∨
      (∃ l₁ l₂, ps = l₁ ++ p :: l₂ ∧ h < n
        ∧ dirNumeric fs p ≠ []
        ∧ n = ((maxNat (dirNumeric fs p) : Nat) : Int)
        ∧ ∀ q ∈ l₁, ∀ m ∈ dirNumeric fs q, (m : Int) < n) := by
  intro ps
  induction ps with
  | nil =>
    intro h b n p hs
    rw [scanGo_nil] at hs
    left
    obtain ⟨h1, h2⟩ := Prod.mk.inj hs
    exact ⟨h1.symm, h2⟩
  | cons p0 rest ih =>
    intro h b n p hs
    by_cases hp : dirNumeric fs p0 = []
    · rw [scanGo_cons_empty fs h b p0 rest hp] at hs
      rcases ih h b n p hs with hcase | ⟨l₁, l₂, hsplit, hlt, hne, hmax, hpre⟩
      · left; exact hcase
      · right
        refine ⟨p0 :: l₁, l₂, by rw [hsplit]; simp, hlt, hne, hmax, ?_⟩
        intro q hq m hm
        rcases List.mem_cons.mp hq with hq | hq
        · subst hq; rw [hp] at hm; cases hm
        · exact hpre q hq m hm
    · by_cases hgt : ((maxNat (dirNumeric fs p0) : Nat) : Int) > h
      · rw [scanGo_cons_gt fs h b p0 rest hp hgt] at hs
        rcases ih _ _ n p hs with ⟨hn, hb⟩ | ⟨l₁, l₂, hsplit, hlt, hne, hmax, hpre⟩
        · right
          have hpp : p0 = p := Option.some.inj hb
          subst hpp
          exact ⟨[], rest, rfl, by rw [hn]; exact hgt, hp, hn, by intro q hq; cases hq⟩
        · right
          refine ⟨p0 :: l₁, l₂, by rw [hsplit]; simp, lt_trans hgt hlt, hne, hmax, ?_⟩
          intro q hq m hm
          rcases List.mem_cons.mp hq with hq | hq
          · subst hq
            have : (m : Int) ≤ ((maxNat (dirNumeric fs q) : Nat) : Int) := by
              exact_mod_cast le_maxNat _ m hm
            exact lt_of_le_of_lt this hlt
          · exact hpre q hq m hm
      · rw [scanGo_cons_le fs h b p0 rest hp hgt] at hs
        rcases ih h b n p hs with hcase | ⟨l₁, l₂, hsplit, hlt, hne, hmax, hpre⟩
        · left; exact hcase
        · right
          refine ⟨p0 :: l₁, l₂, by rw [hsplit]; simp, hlt, hne, hmax, ?_⟩
          intro q hq m hm
          rcases List.mem_cons.mp hq with hq | hq
          · subst hq
            have hmle : (m : Int) ≤ ((maxNat (dirNumeric fs q) : Nat) : Int) := by
              exact_mod_cast le_maxNat _ m hm
            exact lt_of_le_of_lt (le_trans hmle (not_lt.mp hgt)) hlt
          · exact hpre q hq m hm

/-- A successful scan from the initial state selects a listed path whose
own maximum is the selected number. -/
theorem scanDirs_attained (fs : FS) (ps : List String) (n : Int) (p : String)
    (hs : scanDirs fs ps = (n, some p)) :
    p ∈ ps ∧ dirNumeric fs p ≠ []
      ∧ n = ((maxNat (dirNumeric fs p) : Nat) : Int) := by
  rcases scanGo_split fs ps (-1) none n p hs with ⟨_, hb⟩ | ⟨l₁, l₂, hsplit, _, hne, hmax, _⟩
  · exact absurd hb.symm (by simp)
  · refine ⟨?_, hne, hmax⟩
    rw [hsplit]
    exact List.mem_append_right l₁ (List.mem_cons_self p l₂)

/-- C7: for every user-supplied string, including strings containing
single quotes, semicolons, whitespace and other shell metacharacters,
escaping with `escapeShellArg` and then reading the result as a
POSIX-shell word reproduces the original string exactly as a single
argument, consuming the whole escaped text (no injection of additional
arguments or commands, no truncation). -/
theorem escape_roundtrip_single_word :
    ∀ (s : List Char) (t : String),
      shWord (escArg s) = some (s, [])
      ∧ shWord ((escapeShellArg t).data) = some (t.data, []) := by
  have key : ∀ (s : List Char), shWord (escArg s) = some (s, []) := by
    intro s
    show shReadWord .unq [] ('\'' :: (escBody s ++ ['\''])) = some (s, [])
    rw [shReadWord_unq_quote]
    have harr : escBody s ++ ['\''] = escBody s ++ '\'' :: [] := rfl
    rw [harr, shReadWord_sq_escBody, shReadWord_unq_nil]
    simp
  intro s t
  exact ⟨key s, key t.data⟩

theorem joinComma_escape_data (ls : List String) :
    (joinComma (ls.map escapeShellArg)).data = escJoinChars (ls.map String.data) := by
  induction ls with
  | nil => rfl
  | cons s rest ih =>
    cases rest with
    | nil => rfl
    | cons s2 rest2 =>
      show (escapeShellArg s ++ "," ++ joinComma ((s2 :: rest2).map escapeShellArg)).data
        = escArg s.data ++ ',' :: escJoinChars ((s2 :: rest2).map String.data)
      rw [String.data_append, String.data_append, ih]
      simp [escapeShellArg]

theorem joinComma_data (ls : List String) :
    (joinComma ls).data = commaJoinChars (ls.map String.data) := by
  induction ls with
  | nil => rfl
  | cons s rest ih =>
    cases rest with
    | nil => rfl
    | cons s2 rest2 =>
      show (s ++ "," ++ joinComma (s2 :: rest2)).data
        = s.data ++ ',' :: commaJoinChars ((s2 :: rest2).map String.data)
      rw [String.data_append, String.data_append, ih]
      simp

theorem shWord_escJoin_aux :
    ∀ (ls : List (List Char)) (acc : List Char), ls ≠ [] →
      shReadWord .unq acc (escJoinChars ls)
        = some (acc.reverse ++ commaJoinChars ls, []) := by
  intro ls
  induction ls with
  | nil => intro acc h; exact absurd rfl h
  | cons s rest ih =>
    intro acc _
    cases rest with
    | nil =>
      show shReadWord .unq acc ('\'' :: (escBody s ++ ['\'']))
        = some (acc.reverse ++ s, [])
      rw [shReadWord_unq_quote]
      have harr : escBody s ++ ['\''] = escBody s ++ '\'' :: [] := rfl
      rw [harr, shReadWord_sq_escBody, shReadWord_unq_nil]
      simp
    | cons s2 rest2 =>
      show shReadWord .unq acc
          ('\'' :: (escBody s ++ ['\'']) ++ ',' :: escJoinChars (s2 :: rest2))
        = some (acc.reverse ++ (s ++ ',' :: commaJoinChars (s2 :: rest2)), [])
      have harr : '\'' :: (escBody s ++ ['\'']) ++ ',' :: escJoinChars (s2 :: rest2)
          = '\'' :: (escBody s ++ '\'' :: (',' :: escJoinChars (s2 :: rest2))) := by
        simp
      rw [harr, shReadWord_unq_quote, shReadWord_sq_escBody]
      rw [shReadWord_unq_plain _ _ ',' (by decide) (by decide) (by decide)]
      rw [ih (',' :: (s.reverse ++ acc)) (by simp)]
      simp

/-- C2 (amended): the runtime validator accepts any array of strings, so
out-of-vocabulary labels are not rejected (see the counterexample); for
labels drawn from the fixed vocabulary, the submission command appends a
`--label` argument that is the comma-join of the individually escaped
labels, and reading that argument back as a shell word yields exactly the
comma-join of the original labels (pass-through, unchanged). -/
theorem labels_passthrough_commajoin (title body : String) (ls : List String)
    (hvocab : ∀ l ∈ ls, l ∈ gitHubLabels) (hne : ls ≠ []) :
    ghCommand title body (some ls)
      = ghCommandBase title body ++ " --label " ++ joinComma (ls.map escapeShellArg)
    ∧ shWord ((joinComma (ls.map escapeShellArg)).data)
      = some ((joinComma ls).data, []) := by
  constructor
  · have hk : ls.isEmpty = false := by
      simpa [List.isEmpty_iff] using hne
    simp [ghCommand, hk]
  · rw [joinComma_escape_data, joinComma_data]
    exact shWord_escJoin_aux (ls.map String.data) [] (by simpa using hne)

/-- C2 witness: two vocabulary labels are escaped, comma-joined into the
`--label` argument, and read back unchanged. -/
theorem labels_passthrough_commajoin_witness :
    ghCommand "T" "B" (some ["Bug", "Question"])
      = ghCommandBase "T" "B" ++ " --label "
        ++ joinComma (["Bug", "Question"].map escapeShellArg)
    ∧ shWord ((joinComma (["Bug", "Question"].map escapeShellArg)).data)
      = some ((joinComma ["Bug", "Question"]).data, []) :=
  labels_passthrough_commajoin "T" "B" ["Bug", "Question"]
    (by decide) (by decide)

/-- C2 counterexample: a request whose labels array contains a string
outside the fixed vocabulary passes `isValidReportArgs`, is not rejected
at the validation boundary, is processed to a normal preview response
that carries the foreign label unchanged, and the foreign label flows
verbatim into the submission command. -/
theorem invalid_label_not_rejected :
    isValidReportArgs rawBadLabel = true
    ∧ gitHubLabels.contains "totally-made-up-label" = false
    ∧ isRejected (handleRequest "preview_cline_issue" rawBadLabel demoWorld) = false
    ∧ previewLabels (handleRequest "preview_cline_issue" rawBadLabel demoWorld)
        = some ["totally-made-up-label"]
    ∧ strContains (ghCommand "T" "B" (some ["totally-made-up-label"]))
        "totally-made-up-label" = true := by
  refine ⟨rfl, by decide, rfl, rfl, by decide⟩

theorem latestEntryOf_aux (l : List ModelUsageEntry) :
    ∀ (e : ModelUsageEntry),
      ∃ e', l.foldl
          (fun latest current =>
            match latest with
            | none => some current
            | some prev => if current.ts > prev.ts then some current else some prev)
          (some e) = some e'
        ∧ (e' = e ∨ e' ∈ l) ∧ e.ts ≤ e'.ts ∧ ∀ x ∈ l, x.ts ≤ e'.ts := by
  induction l with
  | nil =>
    intro e
    exact ⟨e, rfl, Or.inl rfl, le_refl _, by intro x hx; cases hx⟩
  | cons c t ih =>
    intro e
    by_cases hgt : c.ts > e.ts
    · have hstep : (c :: t).foldl
          (fun latest current =>
            match latest with
            | none => some current
            | some prev => if current.ts > prev.ts then some current else some prev)
          (some e)
          = t.foldl
            (fun latest current =>
              match latest with
              | none => some current
              | some prev => if current.ts > prev.ts then some current else some prev)
            (some c) := by
        simp [List.foldl, hgt]
      obtain ⟨e', he', hmem, hle, hbound⟩ := ih c
      refine ⟨e', by rw [hstep]; exact he', ?_, le_trans (le_of_lt hgt) hle, ?_⟩
      · rcases hmem with h | h
        · exact Or.inr (h ▸ List.mem_cons_self c t)
        · exact Or.inr (List.mem_cons_of_mem c h)
      · intro x hx
        rcases List.mem_cons.mp hx with hx | hx
        · subst hx; exact hle
        · exact hbound x hx
    · have hstep : (c :: t).foldl
          (fun latest current =>
            match latest with
            | none => some current
            | some prev => if current.ts > prev.ts then some current else some prev)
          (some e)
          = t.foldl
            (fun latest current =>
              match latest with
              | none => some current
              | some prev => if current.ts > prev.ts then some current else some prev)
            (some e) := by
        simp [List.foldl, hgt]
      obtain ⟨e', he', hmem, hle, hbound⟩ := ih e
      refine ⟨e', by rw [hstep]; exact he', ?_, hle, ?_⟩
      · rcases hmem with h | h
        · exact Or.inl h
        · exact Or.inr (List.mem_cons_of_mem c h)
      · intro x hx
        rcases List.mem_cons.mp hx with hx | hx
        · subst hx; exact le_trans (not_lt.mp hgt) hle
        · exact hbound x hx

/-- The reduce of src/index.ts lines 181-186 returns an entry of the list
whose timestamp is maximal. -/
theorem latestEntryOf_spec (l : List ModelUsageEntry) (hne : l ≠ []) :
    ∃ e', latestEntryOf l = some e' ∧ e' ∈ l ∧ ∀ x ∈ l, x.ts ≤ e'.ts := by
  cases l with
  | nil => exact absurd rfl hne
  | cons c t =>
    obtain ⟨e', he', hmem, hle, hbound⟩ := latestEntryOf_aux t c
    refine ⟨e', he', ?_, ?_⟩
    · rcases hmem with h | h
      · exact h ▸ List.mem_cons_self c t
      · exact List.mem_cons_of_mem c h
    · intro x hx
      rcases List.mem_cons.mp hx with hx | hx
      · subst hx
        exact hle
      · exact hbound x hx

/-- With a unique maximum-timestamp entry, the reduce returns exactly that
entry. -/
theorem latestEntryOf_unique_max (l : List ModelUsageEntry)
    (e : ModelUsageEntry) (he : e ∈ l)
    (hstrict : ∀ x ∈ l, x ≠ e → x.ts < e.ts) :
    latestEntryOf l = some e := by
  have hne : l ≠ [] := by
    intro h; rw [h] at he; cases he
  obtain ⟨e', he', hmem, hbound⟩ := latestEntryOf_spec l hne
  by_cases heq : e' = e
  · rw [he', heq]
  · exact absurd (hbound e he) (not_le.mpr (hstrict e' hmem heq))

/-- C4: for a sidecar whose usage list is non-empty and whose
maximum-timestamp entry carries both identifiers, the extraction returns
that entry's provider and model; and whatever entry the reduce settles
on is always an entry of the list with maximal timestamp (so a tie can
only resolve to one of the tied entries). -/
theorem latest_entry_provider_model (l : List ModelUsageEntry)
    (e : ModelUsageEntry) (he : e ∈ l)
    (hstrict : ∀ x ∈ l, x ≠ e → x.ts < e.ts)
    (hp : e.model_provider_id ≠ "") (hm : e.model_id ≠ "") :
    extractProviderModel (.parsed (some l))
        = .ok (e.model_provider_id, e.model_id)
    ∧ ∀ e', latestEntryOf l = some e' → e' ∈ l ∧ ∀ x ∈ l, x.ts ≤ e'.ts := by
  have hne : l ≠ [] := by
    intro h; rw [h] at he; cases he
  have hlat : latestEntryOf l = some e := latestEntryOf_unique_max l e he hstrict
  constructor
  · have hk : l.isEmpty = false := by simpa [List.isEmpty_iff] using hne
    simp [extractProviderModel, hk, hlat, hp, hm]
  · intro e' he'
    obtain ⟨e2, he2, hmem, hbound⟩ := latestEntryOf_spec l hne
    rw [he2] at he'
    exact (Option.some.inj he').symm ▸ ⟨hmem, hbound⟩

/-- C4 witness: on the list `[{ts 1}, {ts 5, provider P, model M}, {ts 3}]`
the extraction returns provider "P" and model "M". -/
theorem latest_entry_provider_model_witness :
    extractProviderModel (.parsed (some
        [⟨1, "m1", "p1"⟩, ⟨5, "M", "P"⟩, ⟨3, "m3", "p3"⟩]))
      = .ok ("P", "M")
    ∧ ∀ e', latestEntryOf
          [⟨1, "m1", "p1"⟩, ⟨5, "M", "P"⟩, ⟨3, "m3", "p3"⟩] = some e' →
        e' ∈ [(⟨1, "m1", "p1"⟩ : ModelUsageEntry), ⟨5, "M", "P"⟩, ⟨3, "m3", "p3"⟩]
        ∧ ∀ x ∈ [(⟨1, "m1", "p1"⟩ : ModelUsageEntry), ⟨5, "M", "P"⟩, ⟨3, "m3", "p3"⟩],
            x.ts ≤ e'.ts :=
  latest_entry_provider_model
    [⟨1, "m1", "p1"⟩, ⟨5, "M", "P"⟩, ⟨3, "m3", "p3"⟩]
    ⟨5, "M", "P"⟩ (by decide) (by decide) (by decide) (by decide)

theorem versionLoopGo_nil (ex : List (String × ExecOutcome)) (p : Platform) :
    versionLoopGo ex p [] = ("unknown", []) := rfl

theorem versionLoopGo_cons_match (ex : List (String × ExecOutcome))
    (p : Platform) (ide : String) (rest : List String) (out serr v : String)
    (hrc : runCmd ex (versionProbeCmd p ide) = .ok out serr)
    (hvm : versionMatch out = some v) :
    versionLoopGo ex p (ide :: rest) = (v, [versionProbeCmd p ide]) := by
  simp [versionLoopGo, hrc, hvm]

theorem versionLoopGo_cons_none (ex : List (String × ExecOutcome))
    (p : Platform) (ide : String) (rest : List String)
    (h : probeVersion ex p ide = none) :
    versionLoopGo ex p (ide :: rest)
      = ((versionLoopGo ex p rest).1,
         versionProbeCmd p ide :: (versionLoopGo ex p rest).2) := by
  unfold probeVersion at h
  cases hrc : runCmd ex (versionProbeCmd p ide) with
  | ok out serr =>
    rw [hrc] at h
    have hvm : versionMatch out = none := h
    simp [versionLoopGo, hrc, hvm]
  | fails m o e =>
    simp [versionLoopGo, hrc]

/-- If no probe yields a version, the loop returns the sentinel and has
attempted every probe in order. -/
theorem versionLoop_all_none (ex : List (String × ExecOutcome)) (p : Platform) :
    ∀ ides : List String, (∀ i ∈ ides, probeVersion ex p i = none) →
      versionLoopGo ex p ides = ("unknown", ides.map (versionProbeCmd p)) := by
  intro ides
  induction ides with
  | nil => intro _; rfl
  | cons ide rest ih =>
    intro h
    rw [versionLoopGo_cons_none ex p ide rest (h ide (List.mem_cons_self ide rest))]
    rw [ih (fun i hi => h i (List.mem_cons_of_mem ide hi))]
    simp

/-- The loop stops at the first probe that yields a version: the result is
that version and exactly the probes up to and including it were
executed. -/
theorem versionLoop_first_match (ex : List (String × ExecOutcome)) (p : Platform) :
    ∀ (ides₁ : List String) (ide : String) (ides₂ : List String) (v : String),
      (∀ i ∈ ides₁, probeVersion ex p i = none) →
      probeVersion ex p ide = some v →
      versionLoopGo ex p (ides₁ ++ ide :: ides₂)
        = (v, (ides₁ ++ [ide]).map (versionProbeCmd p)) := by
  intro ides₁
  induction ides₁ with
  | nil =>
    intro ide ides₂ v _ h2
    unfold probeVersion at h2
    cases hrc : runCmd ex (versionProbeCmd p ide) with
    | ok out serr =>
      rw [hrc] at h2
      exact versionLoopGo_cons_match ex p ide ides₂ out serr v hrc h2
    | fails m o e =>
      rw [hrc] at h2
      cases h2
  | cons i rest ih =>
    intro ide ides₂ v h1 h2
    have hstep := versionLoopGo_cons_none ex p i (rest ++ ide :: ides₂)
      (h1 i (List.mem_cons_self i rest))
    rw [List.cons_append, hstep,
      ih ide ides₂ v (fun j hj => h1 j (List.mem_cons_of_mem i hj)) h2]
    simp

/-- Every command the probe loop executes is the probe command of one of
the listed IDE CLIs. -/
theorem versionLoop_trace_probe (ex : List (String × ExecOutcome)) (p : Platform) :
    ∀ (ides : List String) (c : String), c ∈ (versionLoopGo ex p ides).2 →
      ∃ i, i ∈ ides ∧ c = versionProbeCmd p i := by
  intro ides
  induction ides with
  | nil => intro c hc; rw [versionLoopGo_nil] at hc; cases hc
  | cons ide rest ih =>
    intro c hc
    cases hpv : probeVersion ex p ide with
    | some v =>
      unfold probeVersion at hpv
      cases hrc : runCmd ex (versionProbeCmd p ide) with
      | ok out serr =>
        rw [hrc] at hpv
        rw [versionLoopGo_cons_match ex p ide rest out serr v hrc hpv] at hc
        rcases List.mem_singleton.mp hc with hc
        exact ⟨ide, List.mem_cons_self ide rest, hc⟩
      | fails m o e =>
        rw [hrc] at hpv
        cases hpv
    | none =>
      rw [versionLoopGo_cons_none ex p ide rest hpv] at hc
      rcases List.mem_cons.mp hc with hc | hc
      · exact ⟨ide, List.mem_cons_self ide rest, hc⟩
      · obtain ⟨i, hi, hci⟩ := ih c hc
        exact ⟨i, List.mem_cons_of_mem ide hi, hci⟩

/-- C9: version detection iterates the fixed ordered probe list, stops at
the first probe whose output matches the version pattern, and when every
probe fails or no output matches it yields the sentinel "unknown" after
attempting every probe; version detection never makes the request fail
(with metadata available, the preview response is a non-error
response whatever the process table). -/
theorem version_probe_first_success_or_unknown (ex : List (String × ExecOutcome))
    (p : Platform) :
    (∀ (ides₁ : List String) (ide : String) (ides₂ : List String) (v : String),
      (∀ i ∈ ides₁, probeVersion ex p i = none) →
      probeVersion ex p ide = some v →
      versionLoopGo ex p (ides₁ ++ ide :: ides₂)
        = (v, (ides₁ ++ [ide]).map (versionProbeCmd p)))
    ∧ (∀ ides : List String, (∀ i ∈ ides, probeVersion ex p i = none) →
        versionLoopGo ex p ides = ("unknown", ides.map (versionProbeCmd p)))
    ∧ (∀ (w : World) (args : ReportArgs) (md : ApiMetadata),
        getApiMetadata w.platform w.appData w.homeDir w.fs = .ok md →
        ∃ r trace, handleValidated .preview_cline_issue args w = .response r trace
          ∧ r.isError = false) := by
  refine ⟨versionLoop_first_match ex p, versionLoop_all_none ex p, ?_⟩
  intro w args md hmd
  refine ⟨⟨.previewObj args.title (formattedBody (versionLoopGo w.exec w.platform ideClis).1 md.ideUsed (platformString w.platform) w.osRelease md.apiProvider md.modelName args.description) (args.labels.getD []) repoConst, false⟩, (versionLoopGo w.exec w.platform ideClis).2, ?_, rfl⟩
  simp [handleValidated, hmd]

/-- C9 witness: with the `code` probe failing and the `cursor` probe
reporting `saoudrizwan.claude-dev@3.2.1`, the loop returns "3.2.1" after
exactly the first two probes. -/
theorem version_probe_first_success_witness :
    versionLoopGo demoExecProbe .linux ideClis
      = ("3.2.1", (["code"] ++ ["cursor"]).map (versionProbeCmd .linux)) := by
  have h := (version_probe_first_success_or_unknown demoExecProbe .linux).1
    ["code"] "cursor" ["windsurf"] "3.2.1" (by decide) (by decide)
  exact h

/-- C6: whenever the metadata locator fails, both operations short-circuit
into an error-flagged response embedding the locator's message, and no
external command at all is executed (in particular no submission to the
issue-tracker CLI is attempted: the trace is empty). -/
theorem metadata_failure_short_circuits (name : ToolName) (args : ReportArgs)
    (w : World) (msg : String)
    (hmd : getApiMetadata w.platform w.appData w.homeDir w.fs = .error msg) :
    handleValidated name args w
      = .response ⟨.text (metadataErrorText msg), true⟩ [] := by
  simp [handleValidated, hmd]

/-- C6 witness: with an empty filesystem the locator fails and both tools
return the embedded locator error without executing any command. -/
theorem metadata_failure_short_circuits_witness :
    handleValidated .preview_cline_issue ⟨"T", "D", none⟩ emptyWorld
      = .response ⟨.text (metadataErrorText "Could not find any valid task directories"), true⟩ []
    ∧ handleValidated .report_cline_issue ⟨"T", "D", none⟩ emptyWorld
      = .response ⟨.text (metadataErrorText "Could not find any valid task directories"), true⟩ [] :=
  ⟨metadata_failure_short_circuits .preview_cline_issue ⟨"T", "D", none⟩
      emptyWorld "Could not find any valid task directories" rfl,
    metadata_failure_short_circuits .report_cline_issue ⟨"T", "D", none⟩
      emptyWorld "Could not find any valid task directories" rfl⟩

/-- C1 (amended): a preview request returns the structured object with
exactly the supplied title, the supplied labels (empty when omitted), the
fixed repository constant, and a body that embeds the description
verbatim after the separator; the commands executed while handling it are
exactly the version-probe commands (each one the probe of a listed IDE
CLI) — the issue-tracker submission command is never among them, but the
probing does invoke external processes (see the counterexample to the
original claim). -/
theorem preview_fields_and_probe_only_trace (w : World) (args : ReportArgs)
    (md : ApiMetadata)
    (hmd : getApiMetadata w.platform w.appData w.homeDir w.fs = .ok md) :
    ∃ body trace,
      handleValidated .preview_cline_issue args w
        = .response ⟨.previewObj args.title body (args.labels.getD []) repoConst, false⟩ trace
      ∧ (∃ pre, body = pre ++ "\n\n---\n\n**Description:**\n" ++ args.description)
      ∧ trace = (versionLoopGo w.exec w.platform ideClis).2
      ∧ (∀ c ∈ trace, ∃ ide, ide ∈ ideClis ∧ c = versionProbeCmd w.platform ide) := by
  refine ⟨formattedBody (versionLoopGo w.exec w.platform ideClis).1 md.ideUsed (platformString w.platform) w.osRelease md.apiProvider md.modelName args.description, (versionLoopGo w.exec w.platform ideClis).2, ?_, ?_, rfl, ?_⟩
  · simp [handleValidated, hmd]
  · exact ⟨_, rfl⟩
  · intro c hc
    obtain ⟨i, hi, hci⟩ := versionLoop_trace_probe w.exec w.platform ideClis c hc
    exact ⟨i, hi, hci⟩

/-- C1 witness: in the demonstration world the preview returns title "T",
labels defaulted to empty, the fixed repository, and a body ending in the
description after the separator. -/
theorem preview_fields_witness :
    ∃ body trace,
      handleValidated .preview_cline_issue ⟨"T", "D", none⟩ demoWorld
        = .response ⟨.previewObj "T" body ((none : Option (List String)).getD []) repoConst, false⟩ trace
      ∧ (∃ pre, body = pre ++ "\n\n---\n\n**Description:**\n" ++ "D")
      ∧ trace = (versionLoopGo demoWorld.exec demoWorld.platform ideClis).2
      ∧ (∀ c ∈ trace, ∃ ide, ide ∈ ideClis
          ∧ c = versionProbeCmd demoWorld.platform ide) :=
  preview_fields_and_probe_only_trace demoWorld ⟨"T", "D", none⟩
    ⟨"P", "M", "Cursor"⟩ rfl

/-- C1 counterexample: handling a preview request does invoke external
processes — in the demonstration world the preview succeeds (its labels
field is the defaulted empty list) yet the executed-command trace is
non-empty (the version probes ran). -/
theorem preview_executes_probe_processes :
    previewLabels (handleValidated .preview_cline_issue ⟨"T", "D", none⟩ demoWorld)
        = some []
    ∧ traceOf (handleValidated .preview_cline_issue ⟨"T", "D", none⟩ demoWorld)
        ≠ [] := by
  exact ⟨rfl, by decide⟩

/-- C5: when the `gh` process resolves, stderr output with empty stdout
yields an error-flagged response carrying the stderr text; non-empty
stdout is returned unmodified as a non-error response regardless of
stderr; and empty stdout with empty stderr yields the fixed success
message. -/
theorem gh_stdout_stderr_handling (w : World) (args : ReportArgs)
    (md : ApiMetadata) (body cmd out serr : String)
    (hmd : getApiMetadata w.platform w.appData w.homeDir w.fs = .ok md)
    (hbody : body = formattedBody (versionLoopGo w.exec w.platform ideClis).1
      md.ideUsed (platformString w.platform) w.osRelease md.apiProvider
      md.modelName args.description)
    (hcmd : cmd = ghCommand args.title body args.labels)
    (hrun : runCmd w.exec cmd = .ok out serr) :
    handleValidated .report_cline_issue args w
      = .response (ghResultResponse out serr)
          ((versionLoopGo w.exec w.platform ideClis).2 ++ [cmd])
    ∧ (serr ≠ "" → out = "" →
        ghResultResponse out serr = ⟨.text ("GitHub CLI Error: " ++ serr), true⟩)
    ∧ (out ≠ "" → ghResultResponse out serr = ⟨.text out, false⟩)
    ∧ (serr = "" → out = "" →
        ghResultResponse out serr
          = ⟨.text "Issue reported successfully (no stdout from gh).", false⟩) := by
  refine ⟨?_, ?_, ?_, ?_⟩
  · subst hbody
    subst hcmd
    simp [handleValidated, hmd, hrun]
  · intro hse ho
    simp [ghResultResponse, hse, ho]
  · intro ho
    by_cases hse : serr = ""
    · simp [ghResultResponse, hse, ho]
    · simp [ghResultResponse, hse, ho]
  · intro hse ho
    simp [ghResultResponse, hse, ho]

set_option maxRecDepth 20000 in
/-- C5 witness: in a world where the built gh command resolves with a URL
on stdout and an informational message on stderr, the report operation
returns the URL unmodified as a non-error response. -/
theorem gh_stdout_stderr_handling_witness :
    handleValidated .report_cline_issue ⟨"T", "D", none⟩ demoWorldGh
      = .response ⟨.text "https://github.com/cline/cline/issues/123\n", false⟩
          ((versionLoopGo demoWorldGh.exec demoWorldGh.platform ideClis).2
            ++ [demoGhCmd]) := by
  have h := gh_stdout_stderr_handling demoWorldGh ⟨"T", "D", none⟩
    ⟨"P", "M", "Cursor"⟩ demoBody demoGhCmd
    "https://github.com/cline/cline/issues/123\n" "notice: text"
    rfl rfl rfl rfl
  rw [h.1, h.2.2.1 (by decide)]

/-- Candidate directories without numeric records (missing, unreadable or
empty) do not influence the scan at all. -/
theorem scanGo_filter (fs : FS) :
    ∀ (ps : List String) (h : Int) (b : Option String),
      scanGo fs h b ps
        = scanGo fs h b (ps.filter (fun q => !(dirNumeric fs q).isEmpty)) := by
  intro ps
  induction ps with
  | nil => intro h b; rfl
  | cons p rest ih =>
    intro h b
    by_cases hp : dirNumeric fs p = []
    · have hemp : (dirNumeric fs p).isEmpty = true := by
        rw [hp]; rfl
      rw [scanGo_cons_empty fs h b p rest hp, ih]
      simp [List.filter_cons, hemp]
    · have hemp : (dirNumeric fs p).isEmpty = false := by
        simpa [List.isEmpty_iff] using hp
      have hfil : (p :: rest).filter (fun q => !(dirNumeric fs q).isEmpty)
          = p :: rest.filter (fun q => !(dirNumeric fs q).isEmpty) := by
        simp [List.filter_cons, hemp]
      rw [hfil]
      by_cases hgt : ((maxNat (dirNumeric fs p) : Nat) : Int) > h
      · rw [scanGo_cons_gt fs h b p rest hp hgt,
          scanGo_cons_gt fs h b p _ hp hgt, ih]
      · rw [scanGo_cons_le fs h b p rest hp hgt,
          scanGo_cons_le fs h b p _ hp hgt, ih]

/-- C3: whenever some candidate directory owns at least one numeric
record, the scan selects a listed directory together with a record number
it actually contains, that number is the maximum over all numeric
subdirectory names across all candidate directories (not merely within
one directory), and candidate directories that are missing, unreadable or
without numeric subdirectories are skipped without affecting the result
(the scan never fails). -/
theorem locator_selects_overall_max (fs : FS) (paths : List String)
    (p₀ : String) (n₀ : Nat) (hp₀ : p₀ ∈ paths) (hn₀ : n₀ ∈ dirNumeric fs p₀) :
    ∃ (p : String) (n : Nat),
      scanDirs fs paths = ((n : Int), some p)
      ∧ p ∈ paths
      ∧ n ∈ dirNumeric fs p
      ∧ (∀ q ∈ paths, ∀ m ∈ dirNumeric fs q, m ≤ n)
      ∧ scanDirs fs paths
          = scanDirs fs (paths.filter (fun q => !(dirNumeric fs q).isEmpty)) := by
  have hne : dirNumeric fs p₀ ≠ [] := by
    intro h; rw [h] at hn₀; cases hn₀
  obtain ⟨n, p, hpair⟩ : ∃ n p, scanDirs fs paths = (n, some p) := by
    cases hscan : scanDirs fs paths with
    | mk n b =>
      cases b with
      | none =>
        exfalso
        have : ∀ q ∈ paths, dirNumeric fs q = [] :=
          (scanDirs_none_iff fs paths).mp (by rw [hscan])
        exact hne (this p₀ hp₀)
      | some p => exact ⟨n, p, rfl⟩
  obtain ⟨hmem, hnemp, hmax⟩ := scanDirs_attained fs paths n p hpair
  refine ⟨p, maxNat (dirNumeric fs p), ?_, hmem, ?_, ?_, ?_⟩
  · rw [hpair, hmax]
  · exact maxNat_mem _ hnemp
  · intro q hq m hm
    have hb : (m : Int) ≤ (scanDirs fs paths).1 :=
      scanGo_fst_bound fs paths (-1) none q m hq hm
    rw [hpair] at hb
    have hb2 : (m : Int) ≤ n := by simpa using hb
    rw [hmax] at hb2
    exact_mod_cast hb2
  · exact scanGo_filter fs paths (-1) none

/-- C3 witness: with Code holding records 12 and 7 and Cursor holding 15,
the scan selects the overall maximum 15 from the Cursor directory. -/
theorem locator_selects_overall_max_witness :
    ∃ (p : String) (n : Nat),
      scanDirs demoFS (linuxCandidatesOf "/home/u") = ((n : Int), some p)
      ∧ p ∈ linuxCandidatesOf "/home/u"
      ∧ n ∈ dirNumeric demoFS p
      ∧ (∀ q ∈ linuxCandidatesOf "/home/u", ∀ m ∈ dirNumeric demoFS q, m ≤ n)
      ∧ scanDirs demoFS (linuxCandidatesOf "/home/u")
          = scanDirs demoFS ((linuxCandidatesOf "/home/u").filter
              (fun q => !(dirNumeric demoFS q).isEmpty)) :=
  locator_selects_overall_max demoFS (linuxCandidatesOf "/home/u")
    "/home/u/.config/Cursor/User/globalStorage/saoudrizwan.claude-dev/tasks"
    15 (by decide) (by decide)

theorem scanGo_append (fs : FS) :
    ∀ (l₁ l₂ : List String) (h : Int) (b : Option String),
      scanGo fs h b (l₁ ++ l₂)
        = scanGo fs (scanGo fs h b l₁).1 (scanGo fs h b l₁).2 l₂ := by
  intro l₁
  induction l₁ with
  | nil => intro l₂ h b; rfl
  | cons p rest ih =>
    intro l₂ h b
    by_cases hp : dirNumeric fs p = []
    · rw [List.cons_append, scanGo_cons_empty fs h b p (rest ++ l₂) hp,
        scanGo_cons_empty fs h b p rest hp, ih]
    · by_cases hgt : ((maxNat (dirNumeric fs p) : Nat) : Int) > h
      · rw [List.cons_append, scanGo_cons_gt fs h b p (rest ++ l₂) hp hgt,
          scanGo_cons_gt fs h b p rest hp hgt, ih]
      · rw [List.cons_append, scanGo_cons_le fs h b p (rest ++ l₂) hp hgt,
          scanGo_cons_le fs h b p rest hp hgt, ih]

theorem scanGo_fst_lt (fs : FS) (N : Int) :
    ∀ (l : List String) (h : Int) (b : Option String), h < N →
      (∀ q ∈ l, ∀ m ∈ dirNumeric fs q, (m : Int) < N) →
      (scanGo fs h b l).1 < N := by
  intro l
  induction l with
  | nil => intro h b hh _; exact hh
  | cons p rest ih =>
    intro h b hh hq
    by_cases hp : dirNumeric fs p = []
    · rw [scanGo_cons_empty fs h b p rest hp]
      exact ih h b hh (fun q hqq => hq q (List.mem_cons_of_mem p hqq))
    · by_cases hgt : ((maxNat (dirNumeric fs p) : Nat) : Int) > h
      · rw [scanGo_cons_gt fs h b p rest hp hgt]
        have hmlt : ((maxNat (dirNumeric fs p) : Nat) : Int) < N :=
          hq p (List.mem_cons_self p rest) _ (maxNat_mem _ hp)
        exact ih _ _ hmlt (fun q hqq => hq q (List.mem_cons_of_mem p hqq))
      · rw [scanGo_cons_le fs h b p rest hp hgt]
        exact ih h b hh (fun q hqq => hq q (List.mem_cons_of_mem p hqq))

theorem scanGo_const (fs : FS) :
    ∀ (l : List String) (h : Int) (b : Option String),
      (∀ q ∈ l, ∀ m ∈ dirNumeric fs q, (m : Int) ≤ h) →
      scanGo fs h b l = (h, b) := by
  intro l
  induction l with
  | nil => intro h b _; rfl
  | cons p rest ih =>
    intro h b hq
    by_cases hp : dirNumeric fs p = []
    · rw [scanGo_cons_empty fs h b p rest hp]
      exact ih h b (fun q hqq => hq q (List.mem_cons_of_mem p hqq))
    · have hle : ¬ ((maxNat (dirNumeric fs p) : Nat) : Int) > h :=
        not_lt.mpr (hq p (List.mem_cons_self p rest) _ (maxNat_mem _ hp))
      rw [scanGo_cons_le fs h b p rest hp hle]
      exact ih h b (fun q hqq => hq q (List.mem_cons_of_mem p hqq))

/-- The scan selects the earliest candidate attaining the overall
maximum: a prefix all of whose records are strictly below `N`, a
candidate attaining `N`, and a suffix not exceeding `N` yield that
candidate with `N`. -/
theorem scan_tie_earliest (fs : FS) (N : Nat) (l₁ l₂ : List String) (p : String)
    (hp : dirNumeric fs p ≠ []) (hmax : maxNat (dirNumeric fs p) = N)
    (hpre : ∀ q ∈ l₁, ∀ m ∈ dirNumeric fs q, m < N)
    (hsuf : ∀ q ∈ l₂, ∀ m ∈ dirNumeric fs q, m ≤ N) :
    scanDirs fs (l₁ ++ p :: l₂) = ((N : Int), some p) := by
  unfold scanDirs
  rw [scanGo_append]
  have hlt : (scanGo fs (-1) none l₁).1 < (N : Int) := by
    refine scanGo_fst_lt fs (N : Int) l₁ (-1) none ?_ ?_
    · have : (0 : Int) ≤ (N : Int) := Int.ofNat_nonneg N
      omega
    · intro q hq m hm
      exact_mod_cast hpre q hq m hm
  have hgt : ((maxNat (dirNumeric fs p) : Nat) : Int) > (scanGo fs (-1) none l₁).1 := by
    rw [hmax]; exact hlt
  rw [scanGo_cons_gt fs _ _ p l₂ hp hgt, hmax]
  refine scanGo_const fs l₂ (N : Int) (some p) ?_
  intro q hq m hm
  exact_mod_cast hsuf q hq m hm

/-- C10: when candidates tie at the overall-highest record number, the
scan selects the candidate earliest in the fixed order Code, Cursor,
Windsurf (the running maximum is only replaced on a strictly greater
number); the derived IDE label is that candidate's IDE name, and the
locator's selected record — whose sidecar path is consulted — is that
candidate directory with that record number. -/
theorem tie_selects_earliest_candidate (fs : FS) (N : Nat) (k : Fin 3)
    (hk : dirNumeric fs (demoCand k) ≠ [])
    (hkmax : maxNat (dirNumeric fs (demoCand k)) = N)
    (hearlier : ∀ j : Fin 3, j < k → ∀ m ∈ dirNumeric fs (demoCand j), m < N)
    (hall : ∀ j : Fin 3, ∀ m ∈ dirNumeric fs (demoCand j), m ≤ N) :
    scanDirs fs (linuxCandidatesOf demoHome) = ((N : Int), some (demoCand k))
    ∧ deriveIde (demoCand k) = ideApps.get (Fin.cast (by rfl) k)
    ∧ selectedRecord .linux none demoHome fs = some (demoCand k, (N : Int)) := by
  have hscan : scanDirs fs (linuxCandidatesOf demoHome)
      = ((N : Int), some (demoCand k)) := by
    fin_cases k
    · refine scan_tie_earliest fs N [] [demoCand 1, demoCand 2] (demoCand 0)
        hk hkmax (by intro q hq; cases hq) ?_
      intro q hq m hm
      rcases List.mem_cons.mp hq with hq | hq
      · subst hq; exact hall 1 m hm
      · rcases List.mem_singleton.mp hq with hq
        subst hq; exact hall 2 m hm
    · refine scan_tie_earliest fs N [demoCand 0] [demoCand 2] (demoCand 1)
        hk hkmax ?_ ?_
      · intro q hq m hm
        rcases List.mem_singleton.mp hq with hq
        subst hq; exact hearlier 0 (by decide) m hm
      · intro q hq m hm
        rcases List.mem_singleton.mp hq with hq
        subst hq; exact hall 2 m hm
    · refine scan_tie_earliest fs N [demoCand 0, demoCand 1] [] (demoCand 2)
        hk hkmax ?_ (by intro q hq; cases hq)
      intro q hq m hm
      rcases List.mem_cons.mp hq with hq | hq
      · subst hq; exact hearlier 0 (by decide) m hm
      · rcases List.mem_singleton.mp hq with hq
        subst hq; exact hearlier 1 (by decide) m hm
  refine ⟨hscan, ?_, ?_⟩
  · fin_cases k <;> decide
  · simp only [selectedRecord, candidatePaths]
    rw [show ideApps.map (tasksDirOf (demoHome ++ "/.config"))
        = linuxCandidatesOf demoHome from rfl, hscan]

/-- C10 witness: with Code and Cursor both holding record 15, the scan
selects the Code directory, the derived label is "Code", and the
selected record (whose sidecar would be read) is the Code directory with
record 15. -/
theorem tie_selects_earliest_candidate_witness :
    scanDirs demoFSTie (linuxCandidatesOf demoHome)
      = (((15 : Nat) : Int), some (demoCand 0))
    ∧ deriveIde (demoCand 0) = ideApps.get (Fin.cast (by rfl) (0 : Fin 3))
    ∧ selectedRecord .linux none demoHome demoFSTie
        = some (demoCand 0, ((15 : Nat) : Int)) :=
  tie_selects_earliest_candidate demoFSTie 15 0
    (by decide) (by decide) (by decide) (by decide)

/-- C8: the metadata locator fails — always with an error value, never a
crash (`getApiMetadata` is a total function into `Except`) — exactly when
no candidate directory yields any numeric record (vacuously so when no
candidate list can be built), the selected record's sidecar file is
missing or unparseable, the usage list is missing, not an array, or
empty, or the maximum-timestamp entry lacks a provider or model
identifier. -/
theorem locator_failure_cases_iff (pf : Platform) (ad : Option String)
    (hd : String) (fs : FS) :
    (∃ e, getApiMetadata pf ad hd fs = .error e)
      ↔ (noValidTaskRecord pf ad hd fs
          || sidecarMissingOrUnparseable pf ad hd fs
          || usageListInvalid pf ad hd fs
          || latestEntryIncomplete pf ad hd fs) = true := by
  cases hc : candidatePaths pf ad hd with
  | error e =>
    simp [getApiMetadata, noValidTaskRecord, candidateDirs, hc]
  | ok paths =>
    cases hs : scanDirs fs paths with
    | mk h b =>
      cases b with
      | none =>
        have hall : ∀ p ∈ paths, dirNumeric fs p = [] :=
          (scanDirs_none_iff fs paths).mp (by rw [hs])
        have hcd : candidateDirs pf ad hd = paths := by
          simp [candidateDirs, hc]
        have hnv : noValidTaskRecord pf ad hd fs = true := by
          simp only [noValidTaskRecord, hcd, List.all_eq_true]
          intro p hp
          rw [hall p hp]
          rfl
        refine ⟨fun _ => by simp [hnv], fun _ => ?_⟩
        exact ⟨"Could not find any valid task directories",
          by simp [getApiMetadata, hc, hs]⟩
      | some p =>
        have hcd : candidateDirs pf ad hd = paths := by
          simp [candidateDirs, hc]
        have hnv : noValidTaskRecord pf ad hd fs = false := by
          have hx : noValidTaskRecord pf ad hd fs
              = paths.all (fun q => (dirNumeric fs q).isEmpty) := by
            simp [noValidTaskRecord, hcd]
          cases hax : paths.all (fun q => (dirNumeric fs q).isEmpty) with
          | false => rw [hx, hax]
          | true =>
            exfalso
            have hcontra := List.all_eq_true.mp hax
            have hplain : ∀ q ∈ paths, dirNumeric fs q = [] := by
              intro q hq
              exact List.isEmpty_iff.mp (hcontra q hq)
            have h2 := (scanDirs_none_iff fs paths).mpr hplain
            rw [hs] at h2
            exact Option.noConfusion h2
        have hsel : selectedRecord pf ad hd fs = some (p, h) := by
          simp [selectedRecord, hc, hs]
        have hsd : selectedDoc pf ad hd fs
            = some (fs.files.lookup (metadataPath p h)) := by
          simp [selectedDoc, hsel]
        have hga : getApiMetadata pf ad hd fs = readTaskMetadata fs p h := by
          simp [getApiMetadata, hc, hs]
        cases hlk : fs.files.lookup (metadataPath p h) with
        | none =>
          simp [hga, readTaskMetadata, hlk, sidecarMissingOrUnparseable,
            hsd, hnv]
        | some doc =>
          cases doc with
          | unparseable =>
            simp [hga, readTaskMetadata, hlk, extractProviderModel,
              sidecarMissingOrUnparseable, hsd, hnv]
          | parsed mu =>
            cases mu with
            | none =>
              simp [hga, readTaskMetadata, hlk, extractProviderModel,
                sidecarMissingOrUnparseable, usageListInvalid,
                latestEntryIncomplete, hsd, hnv]
            | some l =>
              cases hl : l.isEmpty with
              | true =>
                simp [hga, readTaskMetadata, hlk, extractProviderModel,
                  sidecarMissingOrUnparseable, usageListInvalid,
                  latestEntryIncomplete, hsd, hnv, hl]
              | false =>
                have hlne : l ≠ [] := by
                  intro hcontra
                  rw [hcontra] at hl
                  exact Bool.noConfusion hl
                obtain ⟨e, hlat, _, _⟩ := latestEntryOf_spec l hlne
                by_cases h1 : e.model_provider_id = "" <;>
                  by_cases h2 : e.model_id = "" <;>
                  simp [hga, readTaskMetadata, hlk, extractProviderModel,
                    sidecarMissingOrUnparseable, usageListInvalid,
                    latestEntryIncomplete, hsd, hnv, hl, hlat, h1, h2]

end ClineIssueReporter
